import Mathlib

/-!
Shallow embedding of the transactional push/insert pipeline of the
eventstore (internal/eventstore/v3/push.go) and of the in-memory log
storage test double (internal/logstore/mock/inmem.go), together with
proofs of the specified properties.

Machine integers of the source (sequence numbers, counters) are modelled
as `Nat`; timestamps as `Int` (`time.Time` is a point on a line, `After`
is strict order). Fallible Go functions return an explicit outcome;
a Go `panic` is a distinct outcome constructor, never an error value.
Database interaction (the `*sql.Tx` handle) is modelled by an oracle
that fixes the result of every statement the code may issue.
-/

set_option autoImplicit false

namespace Zitadel

/-- Backend error as seen through `errors.As` with the `errWithSQLState`
capability interface: either the error chain contains an error exposing
`SQLState() string` (`sqlState = some s`), or it does not (`none`). -/
structure DBError where
  sqlState : Option String
deriving DecidableEq, Repr

/-- `errCode` of push.go: extract the SQL state via `errors.As`;
an error without an extractable state code yields the empty string. -/
def errCode (err : DBError) : String :=
  match err.sqlState with
  | some s => s
  | none => ""

/-- `errIsRetryable` of push.go: the standard PG SerializationFailureError
code 40001 or the legacy Cockroach RetriableError code CR000. -/
def errIsRetryable (err : DBError) : Bool :=
  errCode err == "CR000" || errCode err == "40001"

/-- Errors flowing through `Push`: raw database errors, the wrapped
internal error thrown when creating the savepoint fails
(`errs.ThrowInternal(err, "V3-gd8jZ", "Errors.Internal")`), and opaque
errors produced by the external collaborators (`latestSequences`,
`handleUniqueConstraints`, `Begin`, `Commit`, `Rollback`). -/
inductive Err where
  | db (e : DBError)
  | internal (cause : DBError) (id : String) (msg : String)
  | oracle (tag : String)
deriving DecidableEq, Repr

/-- Result of a Go function that may return an error or panic. -/
inductive Outcome (α : Type) where
  | ok (a : α)
  | error (e : Err)
  | panicked (msg : String)
deriving DecidableEq, Repr

/- ----------------------------------------------------------------
In-memory log storage (internal/logstore/mock/inmem.go).
---------------------------------------------------------------- -/

/-- A stored log record. Only its timestamp is inspected by the code
under verification (`r.ts`); the record type itself lives in the mock
package next to inmem.go. Timestamps are integers; `time.Time.After`
is the strict order on them. -/
structure Record where
  ts : Int
deriving DecidableEq, Repr

/-- `time.Time.After`: `a.After b` holds iff `a` is strictly later. -/
def tsAfter (a b : Int) : Bool :=
  b < a

/-- The observable state of `InmemLogStorage`: the emitted records and
the sizes of the accepted bulks. (The mutex only serializes access and
the clock and quota fields are not touched by the claims' methods.) -/
structure InmemLogStorage where
  emitted : List Record
  bulks : List Nat
deriving DecidableEq, Repr

/-- `InmemLogStorage.Emit`: an empty bulk returns nil at once; otherwise
every record of the bulk is appended to `emitted` in a loop, then the
bulk's length is appended to `bulks`; the error result is always nil.
The nil error is `none`. -/
def InmemLogStorage.Emit (l : InmemLogStorage) (bulk : List Record) :
    InmemLogStorage × Option Err :=
  if bulk.length = 0 then
    (l, none)
  else
    let l1 := bulk.foldl (fun acc r => { acc with emitted := acc.emitted ++ [r] }) l
    ({ l1 with bulks := l1.bulks ++ [bulk.length] }, none)

/-- `InmemLogStorage.QueryUsage`: count the emitted records whose
timestamp is strictly after `start`; the receiver is returned unchanged
as the post-state of the method. -/
def InmemLogStorage.QueryUsage (l : InmemLogStorage) (start : Int) :
    Nat × InmemLogStorage :=
  (l.emitted.foldl (fun count r => if tsAfter r.ts start then count + 1 else count) 0, l)

/- ----------------------------------------------------------------
Data model of the push pipeline (push.go).
---------------------------------------------------------------- -/

/-- An aggregate reference: instance, resource owner, aggregate type,
aggregate id, aggregate version — immutable, supplied by the caller. -/
structure AggregateRef where
  instanceID : String
  resourceOwner : String
  typ : String
  id : String
  version : String
deriving DecidableEq, Repr

/-- A caller's request to append one event: an aggregate reference, a
creator identity, an event-type tag and an opaque, already-serialized
payload. -/
structure Command where
  aggregate : AggregateRef
  creator : String
  typ : String
  payload : String
deriving DecidableEq, Repr

/-- The `event` struct of the v3 package: the command's fields plus the
assigned sequence and the server-assigned creation timestamp
(`createdAt`), which is absent on a draft and scanned in after the
insert returns. -/
structure Event where
  aggregate : AggregateRef
  creator : String
  typ : String
  payload : String
  sequence : Nat
  createdAt : Option Nat
deriving DecidableEq, Repr

/-- The in-memory sequence state handed to `mapCommands`: for each
aggregate reference fetched by `latestSequences`, the current value of
its sequence counter (`latestSequence.sequence`). The Go slice holds
pointers that are mutated in place; here the list is updated
functionally. -/
abbrev SequenceState : Type := List (AggregateRef × Nat)

/-- Modelled from the spec: `searchSequenceByCommand` (its file is not
part of the sources) looks up the entry of the command's aggregate
reference among the pre-fetched sequences, returning the current counter
of the first matching entry, or nothing when the aggregate was never
fetched (§4.2: look up the Aggregate Reference's current running
sequence counter). -/
def searchSequence : SequenceState → AggregateRef → Option Nat
  | [], _ => none
  | (b, v) :: rest, a => if b = a then some v else searchSequence rest a

/-- Write-back of `sequence.sequence++`: set the counter of the first
entry matching the aggregate reference. -/
def setSeq : SequenceState → AggregateRef → Nat → SequenceState
  | [], _, _ => []
  | (b, v) :: rest, a, n => if b = a then (b, n) :: rest else (b, v) :: setSeq rest a n

/-- Modelled from the spec: `commandToEvent` (its file is not part of
the sources) builds an event draft carrying the same aggregate, creator,
type and payload as the command (§3: the payload arrives already
serialized, so no marshalling error can occur here), stamped with the
assigned sequence; the creation timestamp is left unset. -/
def commandToEvent (sequence : Nat) (command : Command) : Event :=
  { aggregate := command.aggregate
    creator := command.creator
    typ := command.typ
    payload := command.payload
    sequence := sequence
    createdAt := none }

/-- `argsPerCommand` of push.go. -/
def argsPerCommand : Nat := 9

/-- One SQL argument: the eight string-valued columns or the numeric
sequence. -/
inductive Arg where
  | str (s : String)
  | num (n : Nat)
deriving DecidableEq, Repr

/-- The placeholder group for command number `i`:
`($9i+1, ..., $9i+9)`, exactly as produced by the `fmt.Sprintf` call. -/
def placeHolder (i : Nat) : String :=
  "($" ++ toString (i * argsPerCommand + 1) ++
  ", $" ++ toString (i * argsPerCommand + 2) ++
  ", $" ++ toString (i * argsPerCommand + 3) ++
  ", $" ++ toString (i * argsPerCommand + 4) ++
  ", $" ++ toString (i * argsPerCommand + 5) ++
  ", $" ++ toString (i * argsPerCommand + 6) ++
  ", $" ++ toString (i * argsPerCommand + 7) ++
  ", $" ++ toString (i * argsPerCommand + 8) ++
  ", $" ++ toString (i * argsPerCommand + 9) ++ ")"

/-- The nine arguments appended for one event: instance id, resource
owner, aggregate type, aggregate id, aggregate version, creator, event
type, payload, sequence — in the column order of push.go. -/
def commandArgs (e : Event) : List Arg :=
  [ .str e.aggregate.instanceID
  , .str e.aggregate.resourceOwner
  , .str e.aggregate.typ
  , .str e.aggregate.id
  , .str e.aggregate.version
  , .str e.creator
  , .str e.typ
  , .str e.payload
  , .num e.sequence ]

/-- `mapCommands` of push.go, with the running placeholder index made
explicit: for each command in input order, look up its aggregate's
sequence counter — a missing counter is the fatal `logging...Panic("no
sequence found")` branch, a Go panic, not an error return — increment
it, build the event draft, the placeholder group and the nine arguments.
The final sequence state is returned alongside. -/
def mapCommandsAux (i : Nat) :
    List Command → SequenceState →
    Outcome (List Event × List String × List Arg × SequenceState)
  | [], seqs => .ok ([], [], [], seqs)
  | c :: rest, seqs =>
    match searchSequence seqs c.aggregate with
    | none => .panicked "no sequence found"
    | some v =>
      let seq := v + 1
      let seqs1 := setSeq seqs c.aggregate seq
      let e := commandToEvent seq c
      match mapCommandsAux (i + 1) rest seqs1 with
      | .ok (evs, phs, args, seqsF) =>
          .ok (e :: evs, placeHolder i :: phs, commandArgs e ++ args, seqsF)
      | .error err => .error err
      | .panicked m => .panicked m

/-- `mapCommands` of push.go (placeholder numbering starts at `$1`). -/
def mapCommands (commands : List Command) (sequences : SequenceState) :
    Outcome (List Event × List String × List Arg × SequenceState) :=
  mapCommandsAux 0 commands sequences

/- ----------------------------------------------------------------
Transaction oracle, savepoint retry loop, insertEvents, Push.
---------------------------------------------------------------- -/

/-- `maxRetries` of push.go. -/
def maxRetries : Nat := 5

/-- The behaviour of the database connection during one `Push` call:
the outcome of every statement the code may issue, with the savepoint
statements and the insert query indexed by the attempt number. A query
success is the list of `creation_date` values returned, one per row. -/
structure PushOracle where
  beginErr : Option Err
  latestSeqs : Except Err SequenceState
  savepointErr : Nat → Option DBError
  queryResult : Nat → Except DBError (List Nat)
  rollbackSavepointErr : Nat → Option DBError
  releaseErr : Nat → Option DBError
  uniqueErr : Option Err
  commitErr : Option Err
  rollbackErr : Option Err

/-- State after the retry loop of `insertEvents` exits: the value of the
`err` variable, the value of the `rows` variable (`none` is Go's nil
`*sql.Rows`), and the trace of insert statements actually submitted,
each recorded as (joined placeholders, arguments). -/
structure LoopExit where
  err : Option Err
  rows : Option (List Nat)
  trace : List (String × List Arg)
deriving Repr

/-- The `for i := 0; i < maxRetries; i++` loop of `insertEvents`,
attempt by attempt (`fuel` is the number of iterations the loop
condition still allows, `i` the attempt counter, `err` the current value
of the `err` variable). Faithful to the source:
a failing `SAVEPOINT insert` returns the wrapped internal error at once;
a retryable query failure overwrites `err` with the result of
`ROLLBACK TO SAVEPOINT insert` (logged only) and continues;
a non-retryable query failure breaks with that error; a query success
stores the rows, overwrites `err` with the result of
`RELEASE SAVEPOINT insert` and breaks. When the loop condition stops the
loop, the carried `err` and a nil `rows` are what remain. -/
def insertLoop (o : PushOracle) (ph : String) (args : List Arg) :
    Nat → Nat → Option Err → LoopExit
  | 0, _, err => { err := err, rows := none, trace := [] }
  | fuel + 1, i, _ =>
    match o.savepointErr i with
    | some e =>
        { err := some (.internal e "V3-gd8jZ" "Errors.Internal"), rows := none, trace := [] }
    | none =>
      match o.queryResult i with
      | .error e =>
        if errIsRetryable e then
          let exit := insertLoop o ph args fuel (i + 1) ((o.rollbackSavepointErr i).map Err.db)
          { exit with trace := (ph, args) :: exit.trace }
        else
          { err := some (.db e), rows := none, trace := [(ph, args)] }
      | .ok ts =>
          { err := (o.releaseErr i).map Err.db, rows := some ts, trace := [(ph, args)] }

/-- The timestamp scan of `insertEvents`:
`for i := 0; rows.Next(); i++ { rows.Scan(&events[i].createdAt) }` —
the i-th returned row's timestamp is written into the i-th event; a row
beyond the last event indexes out of range, a Go panic. -/
def scanRows : List Event → List Nat → Outcome (List Event)
  | evs, [] => .ok evs
  | [], _ :: _ => .panicked "index out of range"
  | e :: evs, t :: ts =>
    match scanRows evs ts with
    | .ok evs1 => .ok ({ e with createdAt := some t } :: evs1)
    | .error err => .error err
    | .panicked m => .panicked m

/-- `strings.Join(placeHolders, ", ")`; the surrounding push.sql text is
constant and carries no information, so the joined placeholder list
stands for the statement. -/
def joinPlaceHolders (phs : List String) : String :=
  String.intercalate ", " phs

/-- What `insertEvents` does after its loop exits: `if err != nil`
return the error; otherwise scan the rows — on a nil `rows` handle
(every attempt failed retryably and the final rollback-to-savepoint
succeeded, leaving `err` nil) `rows.Next()` dereferences a nil pointer,
a Go panic. -/
def insertRest (exit : LoopExit) (events : List Event) : Outcome (List Event) :=
  match exit.err with
  | some e => .error e
  | none =>
    match exit.rows with
    | none => .panicked "invalid memory address or nil pointer dereference"
    | some ts => scanRows events ts

/-- `insertEvents` of push.go: map the commands once, run the savepoint
retry loop on the single pre-computed statement and argument list, then
finish with `insertRest`. The trace of submitted insert statements is
returned alongside. -/
def insertEvents (o : PushOracle) (commands : List Command)
    (sequences : SequenceState) :
    Outcome (List Event) × List (String × List Arg) :=
  match mapCommands commands sequences with
  | .panicked m => (.panicked m, [])
  | .error e => (.error e, [])
  | .ok (events, phs, args, _) =>
    let exit := insertLoop o (joinPlaceHolders phs) args maxRetries 0 none
    (insertRest exit events, exit.trace)

/-- What finally happened to the transaction opened by `Push`. -/
inductive TxFinal where
  | notOpened
  | committed
  | commitFailed
  | rolledBack
  | rollbackFailed
deriving DecidableEq, Repr

/-- The value `Push` hands back to its caller: the Go pair
(events slice, error), or a propagating panic. -/
inductive PushOut where
  | ret (events : Option (List Event)) (err : Option Err)
  | panicked (msg : String)
deriving DecidableEq, Repr

/-- The deferred cleanup of `Push` when `err` is non-nil: roll the
transaction back; a rollback failure is only logged. -/
def finishErr (o : PushOracle) : TxFinal :=
  match o.rollbackErr with
  | none => .rolledBack
  | some _ => .rollbackFailed

/-- The deferred cleanup of `Push` when `err` is nil: commit. -/
def finishOk (o : PushOracle) : TxFinal :=
  match o.commitErr with
  | none => .committed
  | some _ => .commitFailed

/-- `Push` of push.go: begin; fetch the latest sequences; insert the
events; handle the unique constraints; the deferred function rolls back
when `err` is non-nil and commits otherwise. During a panic from
`insertEvents` the deferred function still runs with `err` nil, so the
commit path is taken while the panic keeps propagating. On a commit
failure the already-assigned events slice is returned together with the
commit error. -/
def Push (o : PushOracle) (commands : List Command) : PushOut × TxFinal :=
  match o.beginErr with
  | some e => (.ret none (some e), .notOpened)
  | none =>
    match o.latestSeqs with
    | .error e => (.ret none (some e), finishErr o)
    | .ok sequences =>
      match (insertEvents o commands sequences).1 with
      | .panicked m => (.panicked m, finishOk o)
      | .error e => (.ret none (some e), finishErr o)
      | .ok events =>
        match o.uniqueErr with
        | some e => (.ret none (some e), finishErr o)
        | none =>
          match o.commitErr with
          | none => (.ret (some events) none, .committed)
          | some ce => (.ret (some events) (some ce), .commitFailed)

/- ----------------------------------------------------------------
Proofs about the error classifier and the in-memory storage.
---------------------------------------------------------------- -/

/-- C4: `errIsRetryable` accepts exactly the errors whose extractable
SQL state code is `40001` (serialization failure) or `CR000` (legacy
retriable transaction); an error without extractable code, or with any
other code, is non-retryable. -/
theorem errIsRetryable_iff_code (err : DBError) :
    errIsRetryable err = true ↔
      err.sqlState = some "40001" ∨ err.sqlState = some "CR000" := by
  cases err with
  | mk st =>
    cases st with
    | none => simp [errIsRetryable, errCode]
    | some s =>
      simp only [errIsRetryable, errCode, Bool.or_eq_true, beq_iff_eq,
        Option.some.injEq]
      constructor
      · rintro (h | h)
        · exact Or.inr h
        · exact Or.inl h
      · rintro (h | h)
        · exact Or.inr h
        · exact Or.inl h

theorem emit_fold_emitted (bulk : List Record) (l : InmemLogStorage) :
    bulk.foldl (fun acc r => { acc with emitted := acc.emitted ++ [r] }) l
      = { l with emitted := l.emitted ++ bulk } := by
  induction bulk generalizing l with
  | nil => simp
  | cons r rest ih =>
    simp only [List.foldl_cons]
    rw [ih]
    simp

/-- C9: emitting an empty bulk returns nil and leaves the state
untouched (in particular no zero-length entry enters `bulks`); emitting
a non-empty bulk of length n appends exactly its records to `emitted` in
bulk order and appends the single value n to `bulks`. -/
theorem Emit_spec (l : InmemLogStorage) (bulk : List Record) :
    l.Emit bulk =
      (if bulk.length = 0 then l
       else { emitted := l.emitted ++ bulk, bulks := l.bulks ++ [bulk.length] },
       none) := by
  by_cases h : bulk.length = 0
  · simp [InmemLogStorage.Emit, h]
  · simp only [InmemLogStorage.Emit, h, if_false]
    rw [emit_fold_emitted]

theorem queryUsage_fold_count (rs : List Record) (start : Int) : ∀ c : Nat,
    rs.foldl (fun count r => if tsAfter r.ts start then count + 1 else count) c
      = c + (rs.filter (fun r => tsAfter r.ts start)).length := by
  induction rs with
  | nil => intro c; simp
  | cons r rest ih =>
    intro c
    simp only [List.foldl_cons, List.filter_cons]
    by_cases h : tsAfter r.ts start = true
    · rw [if_pos h, if_pos h, ih]
      simp only [List.length_cons]
      omega
    · rw [if_neg h, if_neg h, ih]

/-- The caller-supplied content of an event: everything except the
assigned sequence and timestamp. -/
def eventSource (e : Event) : AggregateRef × String × String × String :=
  (e.aggregate, e.creator, e.typ, e.payload)

/-- The content of a command, for comparison with `eventSource`. -/
def commandSource (c : Command) : AggregateRef × String × String × String :=
  (c.aggregate, c.creator, c.typ, c.payload)

/- ----------------------------------------------------------------
Concrete fixtures: aggregates, commands, baselines and oracles used to
exercise the theorems on closed inputs.
---------------------------------------------------------------- -/

def aggA : AggregateRef := ⟨"instance-1", "owner-1", "user", "agg-a", "v1"⟩

def aggB : AggregateRef := ⟨"instance-1", "owner-1", "org", "agg-b", "v1"⟩

def aggC : AggregateRef := ⟨"instance-1", "owner-1", "project", "agg-c", "v1"⟩

def cmdA1 : Command := ⟨aggA, "creator-1", "user.added", "payload-a1"⟩

def cmdA2 : Command := ⟨aggA, "creator-1", "user.changed", "payload-a2"⟩

def cmdB1 : Command := ⟨aggB, "creator-1", "org.added", "payload-b1"⟩

def cmdC1 : Command := ⟨aggC, "creator-1", "project.added", "payload-c1"⟩

def baselines0 : SequenceState := [(aggA, 2), (aggB, 0)]

def evsW : List Event :=
  [commandToEvent 3 cmdA1, commandToEvent 1 cmdB1, commandToEvent 4 cmdA2]

def phsW : List String := [placeHolder 0, placeHolder 1, placeHolder 2]

def argsW : List Arg :=
  commandArgs (commandToEvent 3 cmdA1) ++ commandArgs (commandToEvent 1 cmdB1)
    ++ commandArgs (commandToEvent 4 cmdA2)

def seqsW : SequenceState := [(aggA, 4), (aggB, 1)]

/-- The fixture batch's events after the scan of the timestamps
`[100, 101, 102]` returned by `okOracle`. -/
def evsScannedW : List Event :=
  [ { commandToEvent 3 cmdA1 with createdAt := some 100 }
  , { commandToEvent 1 cmdB1 with createdAt := some 101 }
  , { commandToEvent 4 cmdA2 with createdAt := some 102 } ]

def base1 : SequenceState := [(aggA, 0)]

def evs1W : List Event := [commandToEvent 1 cmdA1]

def phs1W : List String := [placeHolder 0]

def args1W : List Arg := commandArgs (commandToEvent 1 cmdA1)

def seqs1W : SequenceState := [(aggA, 1)]

/-- SQLSTATE 40001, serialization failure: retryable. -/
def serializationErr : DBError := ⟨some "40001"⟩

/-- SQLSTATE 23505, unique violation: not retryable. -/
def uniqueViolationErr : DBError := ⟨some "23505"⟩

/-- A connection on which everything succeeds; the insert returns one
timestamp per command of the three-command fixture batch. -/
def okOracle : PushOracle :=
  { beginErr := none
    latestSeqs := .ok baselines0
    savepointErr := fun _ => none
    queryResult := fun _ => .ok [100, 101, 102]
    rollbackSavepointErr := fun _ => none
    releaseErr := fun _ => none
    uniqueErr := none
    commitErr := none
    rollbackErr := none }

/-- The sequence lookup fails and, later, so does the rollback. -/
def seqErrOracle : PushOracle :=
  { okOracle with
      latestSeqs := .error (.oracle "sequence lookup failed")
      rollbackErr := some (.oracle "rollback failed") }

/-- Every insert attempt fails with a non-retryable unique violation. -/
def nonRetryOracle : PushOracle :=
  { okOracle with queryResult := fun _ => .error uniqueViolationErr }

/-- Every insert attempt fails with a retryable serialization failure;
all savepoint statements succeed. -/
def exhaustOracle : PushOracle :=
  { okOracle with queryResult := fun _ => .error serializationErr }

/- ----------------------------------------------------------------
Sequence-state lemmas and the contiguity of mapCommands (C1, C5).
---------------------------------------------------------------- -/

@[simp] theorem searchSequence_nil (a : AggregateRef) :
    searchSequence [] a = none := rfl

@[simp] theorem searchSequence_cons (k : AggregateRef) (w : Nat)
    (rest : SequenceState) (a : AggregateRef) :
    searchSequence ((k, w) :: rest) a
      = if k = a then some w else searchSequence rest a := rfl

@[simp] theorem setSeq_nil (a : AggregateRef) (n : Nat) :
    setSeq [] a n = [] := rfl

@[simp] theorem setSeq_cons (k : AggregateRef) (w : Nat) (rest : SequenceState)
    (a : AggregateRef) (n : Nat) :
    setSeq ((k, w) :: rest) a n
      = if k = a then (k, n) :: rest else (k, w) :: setSeq rest a n := rfl

@[simp] theorem commandToEvent_aggregate (s : Nat) (c : Command) :
    (commandToEvent s c).aggregate = c.aggregate := rfl

@[simp] theorem commandToEvent_sequence (s : Nat) (c : Command) :
    (commandToEvent s c).sequence = s := rfl

theorem searchSequence_setSeq_self (seqs : SequenceState) (a : AggregateRef)
    (v n : Nat) (h : searchSequence seqs a = some v) :
    searchSequence (setSeq seqs a n) a = some n := by
  induction seqs with
  | nil => simp at h
  | cons p rest ih =>
    obtain ⟨k, w⟩ := p
    by_cases hk : k = a
    · simp [hk]
    · simp only [searchSequence_cons, if_neg hk] at h
      simp only [setSeq_cons, if_neg hk, searchSequence_cons, if_neg hk]
      exact ih h

theorem searchSequence_setSeq_ne (seqs : SequenceState) (a b : AggregateRef)
    (n : Nat) (h : a ≠ b) :
    searchSequence (setSeq seqs b n) a = searchSequence seqs a := by
  induction seqs with
  | nil => simp
  | cons p rest ih =>
    obtain ⟨k, w⟩ := p
    by_cases hk : k = b
    · subst hk
      simp [Ne.symm h]
    · simp only [setSeq_cons, if_neg hk, searchSequence_cons]
      by_cases hka : k = a
      · simp [hka]
      · simp [hka, ih]

theorem searchSequence_setSeq_isSome (seqs : SequenceState) (a b : AggregateRef)
    (n : Nat) :
    (searchSequence (setSeq seqs b n) a).isSome = (searchSequence seqs a).isSome := by
  induction seqs with
  | nil => simp
  | cons p rest ih =>
    obtain ⟨k, w⟩ := p
    by_cases hk : k = b
    · subst hk
      by_cases hka : k = a
      · simp [hka]
      · simp [hka]
    · simp only [setSeq_cons, if_neg hk, searchSequence_cons]
      by_cases hka : k = a
      · simp [hka]
      · simp [hka, ih]

theorem searchSequence_setSeq_none (seqs : SequenceState) (a b : AggregateRef)
    (n : Nat) (h : searchSequence seqs a = none) :
    searchSequence (setSeq seqs b n) a = none := by
  have hs := searchSequence_setSeq_isSome seqs a b n
  rw [h] at hs
  cases hx : searchSequence (setSeq seqs b n) a with
  | none => rfl
  | some w => rw [hx] at hs; simp at hs

/-- Core induction for contiguity: if aggregate `A` currently has
counter value `b` and the mapping succeeds, the sequences stamped on
`A`'s events are exactly `b+1, ..., b+k` in input order, where `k` is
the number of commands referencing `A`. -/
theorem mapCommandsAux_contiguity (commands : List Command) :
    ∀ (i : Nat) (seqs : SequenceState) (A : AggregateRef) (b : Nat)
      (evs : List Event) (phs : List String) (args : List Arg) (sF : SequenceState),
      searchSequence seqs A = some b →
      mapCommandsAux i commands seqs = .ok (evs, phs, args, sF) →
      (evs.filter (fun e => e.aggregate = A)).map (fun e => e.sequence)
        = List.range' (b + 1) ((commands.filter (fun c => c.aggregate = A)).length) := by
  induction commands with
  | nil =>
    intro i seqs A b evs phs args sF hb hok
    simp only [mapCommandsAux, Outcome.ok.injEq, Prod.mk.injEq] at hok
    obtain ⟨h1, -, -, -⟩ := hok
    subst h1
    simp
  | cons c rest ih =>
    intro i seqs A b evs phs args sF hb hok
    simp only [mapCommandsAux] at hok
    cases hsc : searchSequence seqs c.aggregate with
    | none => rw [hsc] at hok; simp at hok
    | some v =>
      rw [hsc] at hok
      simp only [] at hok
      cases hrec : mapCommandsAux (i + 1) rest (setSeq seqs c.aggregate (v + 1)) with
      | error e => rw [hrec] at hok; simp at hok
      | panicked m => rw [hrec] at hok; simp at hok
      | ok res =>
        obtain ⟨evs1, phs1, args1, sF1⟩ := res
        rw [hrec] at hok
        simp only [Outcome.ok.injEq, Prod.mk.injEq] at hok
        obtain ⟨hevs, -, -, -⟩ := hok
        subst hevs
        by_cases hA : c.aggregate = A
        · have hscA : searchSequence seqs A = some v := by rw [← hA]; exact hsc
          have hvb : v = b := by
            rw [hscA] at hb
            injection hb
          subst hvb
          have hnext : searchSequence (setSeq seqs c.aggregate (v + 1)) A = some (v + 1) := by
            rw [hA]
            exact searchSequence_setSeq_self seqs A v (v + 1) hscA
          have htail := ih (i + 1) _ A (v + 1) evs1 phs1 args1 sF1 hnext hrec
          simp [List.filter_cons, hA, htail, List.range'_succ]
        · have hnext : searchSequence (setSeq seqs c.aggregate (v + 1)) A = some b := by
            rw [searchSequence_setSeq_ne seqs A c.aggregate (v + 1) (fun hh => hA hh.symm)]
            exact hb
          have htail := ih (i + 1) _ A b evs1 phs1 args1 sF1 hnext hrec
          simp [List.filter_cons, hA, htail]

/-- C1: for every batch and baseline state, for each aggregate `A` with
baseline `b` and `k` commands referencing `A`, the sequence numbers
`mapCommands` assigns to `A`'s commands are exactly `b+1, ..., b+k`
(`List.range' (b+1) k`), strictly increasing and contiguous, in the
commands' relative input order. -/
theorem mapCommands_contiguity (commands : List Command)
    (baselines : SequenceState) (A : AggregateRef) (b : Nat)
    (evs : List Event) (phs : List String) (args : List Arg)
    (sF : SequenceState)
    (hb : searchSequence baselines A = some b)
    (hok : mapCommands commands baselines = .ok (evs, phs, args, sF)) :
    (evs.filter (fun e => e.aggregate = A)).map (fun e => e.sequence)
      = List.range' (b + 1) ((commands.filter (fun c => c.aggregate = A)).length) :=
  mapCommandsAux_contiguity commands 0 baselines A b evs phs args sF hb hok

theorem mapCommands_contiguity_witness :
    (evsW.filter (fun e => e.aggregate = aggA)).map (fun e => e.sequence)
      = List.range' (2 + 1)
          (([cmdA1, cmdB1, cmdA2].filter (fun c => c.aggregate = aggA)).length) :=
  mapCommands_contiguity [cmdA1, cmdB1, cmdA2] baselines0 aggA 2
    evsW phsW argsW seqsW (by rfl) (by rfl)

theorem mapCommandsAux_missing_panics (commands : List Command) :
    ∀ (i : Nat) (seqs : SequenceState),
      (∃ c ∈ commands, searchSequence seqs c.aggregate = none) →
      mapCommandsAux i commands seqs = .panicked "no sequence found" := by
  induction commands with
  | nil =>
    rintro i seqs ⟨c, hc, -⟩
    cases hc
  | cons c rest ih =>
    rintro i seqs ⟨c1, hc1, hnone⟩
    simp only [mapCommandsAux]
    cases hsc : searchSequence seqs c.aggregate with
    | none => simp
    | some v =>
      rcases List.mem_cons.mp hc1 with hh | hh
      · subst hh
        rw [hsc] at hnone
        cases hnone
      · have hstill : searchSequence (setSeq seqs c.aggregate (v + 1)) c1.aggregate = none :=
          searchSequence_setSeq_none seqs c1.aggregate c.aggregate (v + 1) hnone
        have hrec := ih (i + 1) (setSeq seqs c.aggregate (v + 1)) ⟨c1, hh, hstill⟩
        simp [hrec]

theorem mapCommandsAux_covered_ok (commands : List Command) :
    ∀ (i : Nat) (seqs : SequenceState),
      (∀ c ∈ commands, (searchSequence seqs c.aggregate).isSome = true) →
      ∃ res, mapCommandsAux i commands seqs = .ok res := by
  induction commands with
  | nil => exact fun i seqs _ => ⟨_, rfl⟩
  | cons c rest ih =>
    intro i seqs h
    have hc := h c (List.mem_cons_self c rest)
    cases hsc : searchSequence seqs c.aggregate with
    | none => rw [hsc] at hc; cases hc
    | some v =>
      have hrest : ∀ c1 ∈ rest,
          (searchSequence (setSeq seqs c.aggregate (v + 1)) c1.aggregate).isSome = true := by
        intro c1 hc1
        rw [searchSequence_setSeq_isSome]
        exact h c1 (List.mem_cons_of_mem _ hc1)
      obtain ⟨⟨evs1, phs1, args1, sF1⟩, hrec⟩ := ih (i + 1) _ hrest
      exact ⟨(commandToEvent (v + 1) c :: evs1, placeHolder i :: phs1,
              commandArgs (commandToEvent (v + 1) c) ++ args1, sF1),
             by simp [mapCommandsAux, hsc, hrec]⟩

/-- C5: a command whose aggregate reference has no pre-fetched baseline
makes `mapCommands` abort the whole operation at once through the
distinct fatal signal — the Go panic "no sequence found" — so
`insertEvents` propagates the panic without submitting a single insert
attempt (empty statement trace: nothing is retried and no default
sequence is ever assigned); and when every command's aggregate has a
matching baseline the fatal branch is unreachable. -/
theorem mapCommands_missing_baseline_fatal (o : PushOracle)
    (commands : List Command) (baselines : SequenceState) :
    ((∃ c ∈ commands, searchSequence baselines c.aggregate = none) →
        insertEvents o commands baselines = (.panicked "no sequence found", []))
    ∧ ((∀ c ∈ commands, (searchSequence baselines c.aggregate).isSome = true) →
        ∀ m, mapCommands commands baselines ≠ .panicked m) := by
  constructor
  · intro hmiss
    have h := mapCommandsAux_missing_panics commands 0 baselines hmiss
    simp [insertEvents, mapCommands, h]
  · intro hcov m
    obtain ⟨res, hres⟩ := mapCommandsAux_covered_ok commands 0 baselines hcov
    simp [mapCommands, hres]

theorem mapCommands_missing_baseline_fatal_witness :
    insertEvents okOracle [cmdA1, cmdC1] baselines0
      = (.panicked "no sequence found", []) :=
  (mapCommands_missing_baseline_fatal okOracle [cmdA1, cmdC1] baselines0).1
    ⟨cmdC1, by decide, by decide⟩

/- ----------------------------------------------------------------
Retry-loop theorems (C3, C7, C8).
---------------------------------------------------------------- -/

theorem insertLoop_trace_const (o : PushOracle) (ph : String) (args : List Arg) :
    ∀ (fuel i : Nat) (err0 : Option Err) (rec : String × List Arg),
      rec ∈ (insertLoop o ph args fuel i err0).trace → rec = (ph, args) := by
  intro fuel
  induction fuel with
  | zero =>
    intro i err0 rec h
    simp [insertLoop] at h
  | succ fuel ih =>
    intro i err0 rec h
    cases hs : o.savepointErr i with
    | some e => simp [insertLoop, hs] at h
    | none =>
      cases hq : o.queryResult i with
      | error e =>
        by_cases hr : errIsRetryable e
        · simp [insertLoop, hs, hq, hr] at h
          rcases h with h | h
          · exact h
          · exact ih (i + 1) ((o.rollbackSavepointErr i).map Err.db) rec h
        · simp [insertLoop, hs, hq, hr] at h
          exact h
      | ok ts =>
        simp [insertLoop, hs, hq] at h
        exact h

/-- C7: an insert-execution failure classified non-retryable stops the
retry loop on that very attempt — the loop returns after the one failed
statement, with no further savepoint attempts — and the error is
propagated unchanged (`.db e`) to the caller of `insertEvents`. -/
theorem insert_nonretryable_immediate :
    (∀ (o : PushOracle) (ph : String) (args : List Arg) (fuel i : Nat)
       (err0 : Option Err) (e : DBError),
       o.savepointErr i = none → o.queryResult i = .error e →
       errIsRetryable e = false →
       insertLoop o ph args (fuel + 1) i err0
         = { err := some (.db e), rows := none, trace := [(ph, args)] })
    ∧ (∀ (o : PushOracle) (commands : List Command) (baselines : SequenceState)
       (evs : List Event) (phs : List String) (args : List Arg)
       (sF : SequenceState) (e : DBError),
       mapCommands commands baselines = .ok (evs, phs, args, sF) →
       o.savepointErr 0 = none → o.queryResult 0 = .error e →
       errIsRetryable e = false →
       insertEvents o commands baselines
         = (.error (.db e), [(joinPlaceHolders phs, args)])) := by
  constructor
  · intro o ph args fuel i err0 e hs hq hr
    simp [insertLoop, hs, hq, hr]
  · intro o commands baselines evs phs args sF e hmap hs hq hr
    have hm : maxRetries = 4 + 1 := rfl
    have hloop : insertLoop o (joinPlaceHolders phs) args maxRetries 0 none
        = { err := some (.db e), rows := none,
            trace := [(joinPlaceHolders phs, args)] } := by
      rw [hm]
      simp [insertLoop, hs, hq, hr]
    simp [insertEvents, hmap, hloop, insertRest]

theorem insert_nonretryable_immediate_witness :
    insertEvents nonRetryOracle [cmdA1] base1
      = (.error (.db uniqueViolationErr), [(joinPlaceHolders phs1W, args1W)]) :=
  insert_nonretryable_immediate.2 nonRetryOracle [cmdA1] base1
    evs1W phs1W args1W seqs1W uniqueViolationErr (by rfl) rfl rfl (by rfl)

/-- C8: within one `insertEvents` call the statement, placeholder list,
argument list and pre-computed sequence numbers come from the single
`mapCommands` call made before the loop; every attempt the loop submits
— also a retry after rollback-to-savepoint — carries exactly that one
statement and argument list, with no re-fetch and no reassignment. -/
theorem insertEvents_statement_computed_once (o : PushOracle)
    (commands : List Command) (baselines : SequenceState)
    (evs : List Event) (phs : List String) (args : List Arg)
    (sF : SequenceState)
    (hmap : mapCommands commands baselines = .ok (evs, phs, args, sF)) :
    ∀ rec ∈ (insertEvents o commands baselines).2,
      rec = (joinPlaceHolders phs, args) := by
  intro rec hrec
  have htr : (insertEvents o commands baselines).2
      = (insertLoop o (joinPlaceHolders phs) args maxRetries 0 none).trace := by
    simp only [insertEvents, hmap]
  rw [htr] at hrec
  exact insertLoop_trace_const o (joinPlaceHolders phs) args maxRetries 0 none rec hrec

theorem insertEvents_statement_computed_once_witness :
    (joinPlaceHolders phsW, argsW)
        ∈ (insertEvents okOracle [cmdA1, cmdB1, cmdA2] baselines0).2
    ∧ (joinPlaceHolders phsW, argsW) = (joinPlaceHolders phsW, argsW) :=
  ⟨by decide,
   insertEvents_statement_computed_once okOracle [cmdA1, cmdB1, cmdA2]
     baselines0 evsW phsW argsW seqsW (by rfl)
     (joinPlaceHolders phsW, argsW) (by decide)⟩

/-- C3 evidence: the loop is bounded at 5 attempts (the trace of the run
below has exactly `maxRetries` submitted statements), but when every
attempt fails with a retryable error and every rollback-to-savepoint
succeeds, `err` has been overwritten with the successful rollback's nil
result, the loop falls through with a nil `rows` handle, and the scan
dereferences it: `insertEvents` crashes with a nil-pointer panic instead
of returning the last underlying error. -/
theorem insertEvents_exhaustion_crashes :
    insertEvents exhaustOracle [cmdA1] base1
      = (.panicked "invalid memory address or nil pointer dereference",
         List.replicate maxRetries (joinPlaceHolders phs1W, args1W)) := by
  rfl

/- ----------------------------------------------------------------
Order preservation and positional scanning (C6), Push phases (C2).
---------------------------------------------------------------- -/

theorem mapCommandsAux_source (commands : List Command) :
    ∀ (i : Nat) (seqs : SequenceState) (evs : List Event) (phs : List String)
      (args : List Arg) (sF : SequenceState),
      mapCommandsAux i commands seqs = .ok (evs, phs, args, sF) →
      evs.map eventSource = commands.map commandSource := by
  induction commands with
  | nil =>
    intro i seqs evs phs args sF hok
    simp only [mapCommandsAux, Outcome.ok.injEq, Prod.mk.injEq] at hok
    obtain ⟨h1, -, -, -⟩ := hok
    subst h1
    simp
  | cons c rest ih =>
    intro i seqs evs phs args sF hok
    simp only [mapCommandsAux] at hok
    cases hsc : searchSequence seqs c.aggregate with
    | none => rw [hsc] at hok; simp at hok
    | some v =>
      rw [hsc] at hok
      simp only [] at hok
      cases hrec : mapCommandsAux (i + 1) rest (setSeq seqs c.aggregate (v + 1)) with
      | error e => rw [hrec] at hok; simp at hok
      | panicked m => rw [hrec] at hok; simp at hok
      | ok res =>
        obtain ⟨evs1, phs1, args1, sF1⟩ := res
        rw [hrec] at hok
        simp only [Outcome.ok.injEq, Prod.mk.injEq] at hok
        obtain ⟨hevs, -, -, -⟩ := hok
        subst hevs
        have htail := ih (i + 1) _ evs1 phs1 args1 sF1 hrec
        simp [eventSource, commandSource, commandToEvent, htail]

theorem scanRows_source (ts : List Nat) :
    ∀ (evs evs1 : List Event), scanRows evs ts = .ok evs1 →
      evs1.map eventSource = evs.map eventSource := by
  induction ts with
  | nil =>
    intro evs evs1 h
    simp only [scanRows, Outcome.ok.injEq] at h
    subst h
    rfl
  | cons t ts ih =>
    intro evs evs1 h
    cases evs with
    | nil => simp [scanRows] at h
    | cons e evs0 =>
      simp only [scanRows] at h
      cases hrec : scanRows evs0 ts with
      | error e2 => rw [hrec] at h; simp at h
      | panicked m => rw [hrec] at h; simp at h
      | ok evs2 =>
        rw [hrec] at h
        simp only [Outcome.ok.injEq] at h
        subst h
        simp [eventSource, ih evs0 evs2 hrec]

theorem scanRows_positional_eq (ts : List Nat) :
    ∀ evs : List Event, ts.length ≤ evs.length →
      scanRows evs ts
        = .ok (List.zipWith (fun e t => { e with createdAt := some t }) evs ts
               ++ evs.drop ts.length) := by
  induction ts with
  | nil => intro evs h; simp [scanRows]
  | cons t ts ih =>
    intro evs h
    cases evs with
    | nil => simp at h
    | cons e evs0 =>
      simp only [List.length_cons] at h
      have hrec := ih evs0 (by omega)
      simp [scanRows, hrec]

theorem insertEvents_ok_source (o : PushOracle) (commands : List Command)
    (baselines : SequenceState) (evs : List Event)
    (hok : (insertEvents o commands baselines).1 = .ok evs) :
    evs.map eventSource = commands.map commandSource
    ∧ evs.length = commands.length := by
  cases hmap : mapCommands commands baselines with
  | panicked m => simp only [insertEvents, hmap] at hok; simp at hok
  | error e => simp only [insertEvents, hmap] at hok; simp at hok
  | ok res =>
    obtain ⟨evs0, phs, args, sF⟩ := res
    simp only [insertEvents, hmap] at hok
    simp only [insertRest] at hok
    cases hE : (insertLoop o (joinPlaceHolders phs) args maxRetries 0 none).err with
    | some e => rw [hE] at hok; simp at hok
    | none =>
      rw [hE] at hok
      simp only [] at hok
      cases hR : (insertLoop o (joinPlaceHolders phs) args maxRetries 0 none).rows with
      | none => rw [hR] at hok; simp at hok
      | some ts =>
        rw [hR] at hok
        simp only [] at hok
        have hsrc : evs.map eventSource = evs0.map eventSource :=
          scanRows_source ts evs0 evs hok
        have hsrc2 : evs0.map eventSource = commands.map commandSource :=
          mapCommandsAux_source commands 0 baselines evs0 phs args sF hmap
        have hmapeq := hsrc.trans hsrc2
        refine ⟨hmapeq, ?_⟩
        have hlen := congrArg List.length hmapeq
        simpa using hlen

/-- C6: a successful `Push` returns events in one-to-one correspondence
with the input commands in the same order — event `i` carries command
`i`'s aggregate, creator, type and payload, however the aggregates are
interleaved — the same holds already at `insertEvents`, and the
timestamp scan after a successful insert is positional: event `i`
receives returned row `i`'s timestamp (`scanRows` equals `zipWith` over
the common prefix). -/
theorem push_order_positional :
    (∀ (o : PushOracle) (commands : List Command) (evs : List Event)
       (err : Option Err) (txf : TxFinal),
       Push o commands = (.ret (some evs) err, txf) →
       evs.map eventSource = commands.map commandSource
       ∧ evs.length = commands.length)
    ∧ (∀ (o : PushOracle) (commands : List Command) (baselines : SequenceState)
       (evs : List Event),
       (insertEvents o commands baselines).1 = .ok evs →
       evs.map eventSource = commands.map commandSource
       ∧ evs.length = commands.length)
    ∧ (∀ (evs : List Event) (ts : List Nat), ts.length ≤ evs.length →
       scanRows evs ts
         = .ok (List.zipWith (fun e t => { e with createdAt := some t }) evs ts
                ++ evs.drop ts.length)) := by
  refine ⟨?_, ?_, ?_⟩
  · intro o commands evs err txf hp
    cases hbeg : o.beginErr with
    | some e => simp [Push, hbeg] at hp
    | none =>
      cases hseq : o.latestSeqs with
      | error e => simp [Push, hbeg, hseq] at hp
      | ok sequences =>
        cases hin : (insertEvents o commands sequences).1 with
        | panicked m => simp [Push, hbeg, hseq, hin] at hp
        | error e => simp [Push, hbeg, hseq, hin] at hp
        | ok evs0 =>
          have hsame : evs0 = evs := by
            cases huniq : o.uniqueErr with
            | some e => simp [Push, hbeg, hseq, hin, huniq] at hp
            | none =>
              cases hcommit : o.commitErr with
              | none =>
                simp only [Push, hbeg, hseq, hin, huniq, hcommit,
                  Prod.mk.injEq, PushOut.ret.injEq, Option.some.injEq] at hp
                exact hp.1.1
              | some ce =>
                simp only [Push, hbeg, hseq, hin, huniq, hcommit,
                  Prod.mk.injEq, PushOut.ret.injEq, Option.some.injEq] at hp
                exact hp.1.1
          subst hsame
          exact insertEvents_ok_source o commands sequences evs0 hin
  · intro o commands baselines evs hok
    exact insertEvents_ok_source o commands baselines evs hok
  · intro evs ts h
    exact scanRows_positional_eq ts evs h

theorem push_order_positional_witness :
    evsScannedW.map eventSource = [cmdA1, cmdB1, cmdA2].map commandSource
    ∧ evsScannedW.length = [cmdA1, cmdB1, cmdA2].length :=
  push_order_positional.1 okOracle [cmdA1, cmdB1, cmdA2]
    evsScannedW none .committed (by rfl)

/-- C2: with the transaction open, any phase error — sequence lookup,
insert, or uniqueness handling — makes `Push` return exactly that
phase's error with no events, and the deferred cleanup rolls the whole
transaction back (the outcome is `finishErr`, never a commit); the
equations hold for every value of the rollback's own result, so a failed
rollback never replaces or masks the phase error; only when all three
phases succeed does `Push` commit and return the events. -/
theorem Push_phase_errors (o : PushOracle) (commands : List Command)
    (hb : o.beginErr = none) :
    (∀ e, o.latestSeqs = .error e →
       Push o commands = (.ret none (some e), finishErr o)
       ∧ finishErr o ≠ .committed ∧ finishErr o ≠ .commitFailed
       ∧ (finishErr o = .rolledBack ∨ finishErr o = .rollbackFailed))
    ∧ (∀ sequences e, o.latestSeqs = .ok sequences →
       (insertEvents o commands sequences).1 = .error e →
       Push o commands = (.ret none (some e), finishErr o)
       ∧ finishErr o ≠ .committed ∧ finishErr o ≠ .commitFailed
       ∧ (finishErr o = .rolledBack ∨ finishErr o = .rollbackFailed))
    ∧ (∀ sequences evs e, o.latestSeqs = .ok sequences →
       (insertEvents o commands sequences).1 = .ok evs →
       o.uniqueErr = some e →
       Push o commands = (.ret none (some e), finishErr o)
       ∧ finishErr o ≠ .committed ∧ finishErr o ≠ .commitFailed
       ∧ (finishErr o = .rolledBack ∨ finishErr o = .rollbackFailed))
    ∧ (∀ sequences evs, o.latestSeqs = .ok sequences →
       (insertEvents o commands sequences).1 = .ok evs →
       o.uniqueErr = none → o.commitErr = none →
       Push o commands = (.ret (some evs) none, .committed)) := by
  have hfe : finishErr o = .rolledBack ∨ finishErr o = .rollbackFailed := by
    unfold finishErr
    cases o.rollbackErr <;> simp
  have hne : finishErr o ≠ .committed ∧ finishErr o ≠ .commitFailed := by
    rcases hfe with h | h <;> rw [h] <;> exact ⟨by simp, by simp⟩
  refine ⟨?_, ?_, ?_, ?_⟩
  · intro e hseq
    exact ⟨by simp [Push, hb, hseq], hne.1, hne.2, hfe⟩
  · intro sequences e hseq hin
    exact ⟨by simp [Push, hb, hseq, hin], hne.1, hne.2, hfe⟩
  · intro sequences evs e hseq hin huniq
    exact ⟨by simp [Push, hb, hseq, hin, huniq], hne.1, hne.2, hfe⟩
  · intro sequences evs hseq hin huniq hcommit
    simp [Push, hb, hseq, hin, huniq, hcommit]

theorem Push_phase_errors_witness :
    Push seqErrOracle [cmdA1]
        = (.ret none (some (.oracle "sequence lookup failed")), finishErr seqErrOracle)
    ∧ finishErr seqErrOracle ≠ .committed
    ∧ finishErr seqErrOracle ≠ .commitFailed
    ∧ (finishErr seqErrOracle = .rolledBack
        ∨ finishErr seqErrOracle = .rollbackFailed) :=
  (Push_phase_errors seqErrOracle [cmdA1] rfl).1
    (.oracle "sequence lookup failed") rfl

/-- C10: `QueryUsage` returns the number of emitted records whose
timestamp is strictly after `start` (a record whose timestamp equals
`start` is not counted) and leaves the stored records unchanged. -/
theorem QueryUsage_spec (l : InmemLogStorage) (start : Int) :
    l.QueryUsage start
      = ((l.emitted.filter (fun r => start < r.ts)).length, l) := by
  have h := queryUsage_fold_count l.emitted start 0
  simp only [tsAfter] at h
  simp only [InmemLogStorage.QueryUsage, tsAfter, h, Nat.zero_add]

end Zitadel
